import Mathlib

/-!
Shallow embedding of the text-to-image editor's layout and export engine
(the `downloadAsPNG` callback and the style mutators of the `TextEditor`
component).  Strings are modelled as lists of characters so that the
splitting, trimming and wrapping loops of the source can be reproduced as
structural recursions; pixel widths produced by the host's `measureText`
are modelled as an arbitrary function into the rationals, and every
floating-point arithmetic step of the source is mirrored exactly over `ℚ`.
-/

abbrev Str := List Char

/-- Splitting a string at every character satisfying `p`, keeping empty
chunks, exactly like JavaScript's `String.split` with a single-character
separator (`"".split` gives `[""]`, and adjacent separators give empty
chunks). -/
def splitP (p : Char → Bool) : Str → List Str
  | [] => [[]]
  | c :: cs =>
    if p c then [] :: splitP p cs
    else
      match splitP p cs with
      | [] => [[c]]
      | h :: t => (c :: h) :: t

/-- The non-empty chunks of `splitP p s`: the `p`-separated words of `s`. -/
def wordsP (p : Char → Bool) (s : Str) : List Str :=
  (splitP p s).filter (fun w => w != [])

/-- Whitespace test used by the embedding of `trim` and of the regular
expression split on runs of whitespace. -/
def isWS (c : Char) : Bool :=
  c.isWhitespace

/-- Words of a string after collapsing whitespace: the embedding of
JavaScript's `s.split(/\s+/)` applied to an already-trimmed string (on a
trimmed string the regex split produces exactly the non-empty chunks
between whitespace characters). -/
def wsWords (s : Str) : List Str :=
  wordsP isWS s

/-- Embedding of JavaScript's `String.prototype.trim`: drop whitespace from
both ends. -/
def trim (s : Str) : Str :=
  ((s.dropWhile isWS).reverse.dropWhile isWS).reverse

/-- The `align` field of the style descriptor (source: the `TextStyle`
interface, `"left" | "center" | "right" | "justify"`). -/
inductive Align where
  | left
  | center
  | right
  | justify
deriving DecidableEq, Repr

/-- The style descriptor (source: `interface TextStyle`).  `fontSize` is a
JavaScript number, modelled as a rational. -/
structure TextStyle where
  bold : Bool
  italic : Bool
  underline : Bool
  fontSize : ℚ
  color : Str
  align : Align
deriving DecidableEq, Repr

/-- The initial editor style (source: the `useState<TextStyle>` initial
value in `TextEditor`). -/
def initStyle : TextStyle :=
  { bold := false
    italic := false
    underline := false
    fontSize := 11
    color := ("#737373".toList)
    align := Align.left }

/-- The three boolean style properties that `toggleStyle` may flip
(source: `keyof Pick<TextStyle, "bold" | "italic" | "underline">`). -/
inductive ToggleProp where
  | bold
  | italic
  | underline
deriving DecidableEq, Repr

/-- Source `toggleStyle`: flip the named boolean property, keep the rest. -/
def toggleStyle (p : ToggleProp) (s : TextStyle) : TextStyle :=
  match p with
  | ToggleProp.bold => { s with bold := !s.bold }
  | ToggleProp.italic => { s with italic := !s.italic }
  | ToggleProp.underline => { s with underline := !s.underline }

/-- Source `setAlignment`: replace the `align` field. -/
def setAlignment (a : Align) (s : TextStyle) : TextStyle :=
  { s with align := a }

/-- Source `changeFontSize`: add `delta` and clamp with
`Math.max(8, Math.min(72, prev.fontSize + delta))`. -/
def changeFontSize (delta : ℚ) (s : TextStyle) : TextStyle :=
  { s with fontSize := max 8 (min 72 (s.fontSize + delta)) }

/-- Source `changeColor`: replace the `color` field. -/
def changeColor (c : Str) (s : TextStyle) : TextStyle :=
  { s with color := c }

/-- A discrete user action on the style state: one invocation of one of the
four style mutators. -/
inductive EditorAct where
  | toggle (p : ToggleProp)
  | setAlign (a : Align)
  | changeFont (d : ℚ)
  | setColor (c : Str)
deriving DecidableEq, Repr

/-- Apply one user action to the style state. -/
def applyAction (s : TextStyle) (a : EditorAct) : TextStyle :=
  match a with
  | EditorAct.toggle p => toggleStyle p s
  | EditorAct.setAlign a => setAlignment a s
  | EditorAct.changeFont d => changeFontSize d s
  | EditorAct.setColor c => changeColor c s

/-- Apply a sequence of user actions in order. -/
def applyActions (acts : List EditorAct) (s : TextStyle) : TextStyle :=
  acts.foldl applyAction s

/-- Source: `const fixedWidth = 600`. -/
def fixedWidth : ℚ := 600

/-- Source: `const padding = 1`. -/
def padding : ℚ := 1

/-- Source: `const availableWidth = fixedWidth - padding * 2`. -/
def availableWidth : ℚ := fixedWidth - padding * 2

/-- Source: `const lineHeight = style.fontSize * 1.5`. -/
def lineHeight (st : TextStyle) : ℚ :=
  st.fontSize * 1.5

/-- Source: `const startY = padding`. -/
def startY : ℚ := padding

/-- Vertical position of line `i`, source: `const y = startY + index * lineHeight`. -/
def yAt (st : TextStyle) (i : ℕ) : ℚ :=
  startY + (i : ℚ) * lineHeight st

/-- Embedding of the inner greedy wrapping loop of `downloadAsPNG`
(`words.forEach` plus the final flush of `currentLine`): `m` is the
measure provided by `ctx.measureText` under the current font. -/
def wrapWords (m : Str → ℚ) : List Str → Str → List Str
  | [], current =>
    if current ≠ [] then [current] else []
  | word :: ws, current =>
    let testLine := if current ≠ [] then current ++ ' ' :: word else word
    if m testLine ≤ availableWidth then
      wrapWords m ws testLine
    else if current ≠ [] then
      current :: wrapWords m ws word
    else
      word :: wrapWords m ws []

/-- Source: `const lines = text.split("\n").filter((line) => line.trim() !== "")`. -/
def docLines (text : Str) : List Str :=
  (splitP (fun c => c == '\n') text).filter (fun l => trim l != [])

/-- Embedding of the outer wrapping loop (`lines.forEach`), which skips
blank lines, splits each line on single spaces and runs the greedy loop,
appending to one shared `wrappedLines` array. -/
def wrapLines (m : Str → ℚ) (lines : List Str) : List Str :=
  lines.flatMap fun line =>
    if trim line = [] then []
    else wrapWords m (splitP (fun c => c == ' ') line) []

/-- The wrapped lines computed by `downloadAsPNG` from the raw document. -/
def wrapDoc (m : Str → ℚ) (text : Str) : List Str :=
  wrapLines m (docLines text)

/-- All raw space-separated words of the filtered document lines, in
order: the words the greedy wrapping loop iterates over. -/
def rawDocWords (text : Str) : List Str :=
  (docLines text).flatMap fun line => splitP (fun c => c == ' ') line

/-- Drawing operations issued against the 2D context: glyph drawing
(`ctx.fillText`) and underline strokes (`ctx.moveTo`/`lineTo`/`stroke`).
The fill and stroke colors are `style.color` throughout one export and the
stroke width is always 1, so they are not repeated per operation. -/
inductive DrawOp where
  | fillText (s : Str) (x y : ℚ)
  | strokeLine (x1 y1 x2 y2 : ℚ)
deriving DecidableEq, Repr

/-- The underline stroke drawn after a word or line when
`style.underline` is set: a 1-unit stroke from `x` to `x + w` at vertical
offset `fontSize + 2` below the line top. -/
def underlineOps (st : TextStyle) (x w y : ℚ) : List DrawOp :=
  if st.underline then
    [DrawOp.strokeLine x (y + st.fontSize + 2) (x + w) (y + st.fontSize + 2)]
  else []

/-- Embedding of the justify placement loop (`words.forEach` with
`currentX`): draw each word at `currentX`, underline it if requested, and
advance by the word's measured width plus `spaceWidth` except after the
last word. -/
def justifyWords (st : TextStyle) (m : Str → ℚ) (sw y : ℚ) : List Str → ℚ → List DrawOp
  | [], _ => []
  | [w], x => DrawOp.fillText w x y :: underlineOps st x (m w) y
  | w :: ws, x =>
    (DrawOp.fillText w x y :: underlineOps st x (m w) y)
      ++ justifyWords st m sw y ws (x + m w + sw)

/-- Embedding of the body of the `wrappedLines.forEach` rendering loop of
`downloadAsPNG` for the line at position `i` out of `total` wrapped
lines. -/
def renderLine (st : TextStyle) (m : Str → ℚ) (total i : ℕ) (line : Str) : List DrawOp :=
  let y := yAt st i
  if st.align = Align.justify ∧ trim line ≠ [] ∧ i < total - 1 then
    let words := wsWords (trim line)
    if 1 < words.length then
      let totalTextWidth := (words.map m).sum
      let totalSpaceWidth := availableWidth - totalTextWidth
      let spaceWidth := totalSpaceWidth / ((words.length : ℚ) - 1)
      justifyWords st m spaceWidth y words padding
    else
      DrawOp.fillText line padding y :: underlineOps st padding (m line) y
  else
    let w := m line
    let x :=
      if st.align = Align.center then (fixedWidth - w) / 2
      else if st.align = Align.right then fixedWidth - w - padding
      else padding
    DrawOp.fillText line x y :: underlineOps st x w y

/-- The full rendering loop over all wrapped lines. -/
def renderAll (st : TextStyle) (m : Str → ℚ) (lines : List Str) : List DrawOp :=
  lines.enum.flatMap fun p => renderLine st m lines.length p.1 p.2

/-- Everything `downloadAsPNG` commits for one export: the wrapped lines,
the computed text height, the surface dimensions (in physical pixels), the
fill/stroke color, the ordered draw operations and the resolved file
name. -/
structure ExportOutput where
  wrappedLines : List Str
  textHeight : ℚ
  canvasWidth : ℚ
  canvasHeight : ℚ
  color : Str
  ops : List DrawOp
  filename : Str
deriving DecidableEq, Repr

/-- Source: `const textHeight = wrappedLines.length * lineHeight - (lineHeight - style.fontSize)`. -/
def textHeightOf (st : TextStyle) (wrappedLines : List Str) : ℚ :=
  (wrappedLines.length : ℚ) * lineHeight st - (lineHeight st - st.fontSize)

/-- Embedding of `downloadAsPNG`.  `dpr` is `window.devicePixelRatio`, `m`
is the measure `ctx.measureText` under the font composed from the style.
The canvas/context null checks concern host state that is assumed present
here; the empty-document check is the modelled early return (`none`). -/
def downloadAsPNG (dpr : ℚ) (m : Str → ℚ) (text title : Str) (st : TextStyle) :
    Option ExportOutput :=
  if docLines text = [] then none
  else
    some
      { wrappedLines := wrapLines m (docLines text)
        textHeight := textHeightOf st (wrapLines m (docLines text))
        canvasWidth := fixedWidth * dpr
        canvasHeight := (textHeightOf st (wrapLines m (docLines text)) + padding * 2) * dpr
        color := st.color
        ops := renderAll st m (wrapLines m (docLines text))
        filename := if title ≠ [] then title ++ (".png".toList) else ("text-editor-export.png".toList) }

/-- The `fillText` operations of an operation list, in order, with their
string and position. -/
def fillOps : List DrawOp → List (Str × ℚ × ℚ)
  | [] => []
  | DrawOp.fillText s x y :: rest => (s, x, y) :: fillOps rest
  | DrawOp.strokeLine _ _ _ _ :: rest => fillOps rest

/-- The last glyph-drawing operation of an operation list. -/
def lastFill (ops : List DrawOp) : Option (Str × ℚ × ℚ) :=
  (fillOps ops).getLast?

/-- Sum of the x coordinates of two optional fill operations. -/
def addX : Option (Str × ℚ × ℚ) → Option (Str × ℚ × ℚ) → Option ℚ
  | some u, some v => some (u.2.1 + v.2.1)
  | _, _ => none

/-- The word positions produced by the justify placement loop: each word
paired with the x and y at which it is drawn. -/
def justPos (m : Str → ℚ) (sw y : ℚ) : List Str → ℚ → List (Str × ℚ × ℚ)
  | [], _ => []
  | [w], x => [(w, x, y)]
  | w :: ws, x => (w, x, y) :: justPos m sw y ws (x + m w + sw)

/-- The uniform inter-word gap of the justify branch:
`spaceWidth = (availableWidth − totalTextWidth) / (words.length − 1)`. -/
def justSW (m : Str → ℚ) (ws : List Str) : ℚ :=
  (availableWidth - (ws.map m).sum) / ((ws.length : ℚ) - 1)

/-- A concrete measure used for evaluating the engine on closed inputs:
every character is 100 units wide. -/
def exMeasure (s : Str) : ℚ :=
  100 * (s.length : ℚ)

/-- The initial style with justified alignment. -/
def justStyle : TextStyle :=
  { initStyle with align := Align.justify }

/-- The initial style with right alignment. -/
def rightStyle : TextStyle :=
  { initStyle with align := Align.right }

/-- The export output of the concrete one-word document `"hi"` under
`exMeasure`, the initial style and device scale 2: one wrapped line, text
height `1 × 16.5 − 5.5 = 11`, surface height `(11 + 2) × 2 = 26`. -/
def outEx : ExportOutput :=
  { wrappedLines := [['h', 'i']]
    textHeight := 11
    canvasWidth := 1200
    canvasHeight := 26
    color := ("#737373".toList)
    ops := [DrawOp.fillText ['h', 'i'] 1 1]
    filename := ("text-editor-export.png".toList) }

/-! ### Lemmas on splitting, words and trimming -/

theorem splitP_ne_nil (p : Char → Bool) (s : Str) : splitP p s ≠ [] := by
  cases s with
  | nil => simp [splitP]
  | cons c cs =>
    simp only [splitP]
    split
    · simp
    · cases h : splitP p cs <;> simp

theorem splitP_append (p : Char → Bool) {c : Char} (hc : p c = true) (a b : Str) :
    splitP p (a ++ c :: b) = splitP p a ++ splitP p b := by
  induction a with
  | nil => simp [splitP, hc]
  | cons x xs ih =>
    by_cases hx : p x
    · simp [splitP, hx, ih]
    · obtain ⟨h, t, ht⟩ : ∃ h t, splitP p xs = h :: t := by
        cases hxs : splitP p xs with
        | nil => exact absurd hxs (splitP_ne_nil p xs)
        | cons h t => exact ⟨h, t, rfl⟩
      have key : splitP p (xs ++ c :: b) = h :: (t ++ splitP p b) := by
        rw [ih, ht]; rfl
      rw [List.cons_append]
      simp only [splitP, if_neg hx]
      rw [key, ht]
      rfl

theorem wordsP_append (p : Char → Bool) {c : Char} (hc : p c = true) (a b : Str) :
    wordsP p (a ++ c :: b) = wordsP p a ++ wordsP p b := by
  simp [wordsP, splitP_append p hc, List.filter_append]

theorem splitP_chunk_not_p (p : Char → Bool) (s : Str) :
    ∀ w ∈ splitP p s, ∀ ch ∈ w, p ch = false := by
  induction s with
  | nil => intro w hw ch hch; simp [splitP] at hw; simp [hw] at hch
  | cons c cs ih =>
    intro w hw ch hch
    by_cases hc : p c
    · simp only [splitP, if_pos hc, List.mem_cons] at hw
      rcases hw with rfl | hw
      · simp at hch
      · exact ih w hw ch hch
    · obtain ⟨h, t, ht⟩ : ∃ h t, splitP p cs = h :: t := by
        cases hcs : splitP p cs with
        | nil => exact absurd hcs (splitP_ne_nil p cs)
        | cons h t => exact ⟨h, t, rfl⟩
      simp only [splitP, if_neg hc, ht, List.mem_cons] at hw
      rcases hw with rfl | hw
      · rcases List.mem_cons.mp hch with rfl | hch2
        · simpa using hc
        · exact ih h (by simp [ht]) ch hch2
      · exact ih w (by simp [ht, hw]) ch hch

theorem splitP_chunk_subset (p : Char → Bool) (s : Str) :
    ∀ w ∈ splitP p s, ∀ ch ∈ w, ch ∈ s := by
  induction s with
  | nil => intro w hw ch hch; simp [splitP] at hw; simp [hw] at hch
  | cons c cs ih =>
    intro w hw ch hch
    by_cases hc : p c
    · simp only [splitP, if_pos hc, List.mem_cons] at hw
      rcases hw with rfl | hw
      · simp at hch
      · exact List.mem_cons_of_mem c (ih w hw ch hch)
    · obtain ⟨h, t, ht⟩ : ∃ h t, splitP p cs = h :: t := by
        cases hcs : splitP p cs with
        | nil => exact absurd hcs (splitP_ne_nil p cs)
        | cons h t => exact ⟨h, t, rfl⟩
      simp only [splitP, if_neg hc, ht, List.mem_cons] at hw
      rcases hw with rfl | hw
      · rcases List.mem_cons.mp hch with rfl | hch2
        · exact List.mem_cons_self ch cs
        · exact List.mem_cons_of_mem c (ih h (by simp [ht]) ch hch2)
      · exact List.mem_cons_of_mem c (ih w (by simp [ht, hw]) ch hch)

theorem flatMap_wordsP_consHead (p q : Char → Bool) (hqp : ∀ c, q c = true → p c = true) :
    ∀ (s t : Str) (h : Str) (tl : List Str), splitP q s = h :: tl →
      (((t ++ h) :: tl).flatMap (wordsP p)) = wordsP p (t ++ s) := by
  intro s
  induction s with
  | nil =>
    intro t h tl hsplit
    simp [splitP] at hsplit
    obtain ⟨rfl, rfl⟩ := hsplit
    simp
  | cons c cs ih =>
    intro t h tl hsplit
    obtain ⟨h2, t2, ht2⟩ : ∃ h2 t2, splitP q cs = h2 :: t2 := by
      cases hcs : splitP q cs with
      | nil => exact absurd hcs (splitP_ne_nil q cs)
      | cons h2 t2 => exact ⟨h2, t2, rfl⟩
    by_cases hc : q c
    · simp only [splitP, if_pos hc, List.cons.injEq] at hsplit
      obtain ⟨rfl, rfl⟩ := hsplit
      have step := ih [] h2 t2 ht2
      simp only [List.nil_append] at step
      rw [ht2, wordsP_append p (hqp c hc) t cs]
      simp only [List.append_nil, List.flatMap_cons] at step ⊢
      rw [← step]
    · simp only [splitP, if_neg hc, ht2, List.cons.injEq] at hsplit
      obtain ⟨rfl, rfl⟩ := hsplit
      have step := ih (t ++ [c]) h2 t2 ht2
      rw [show t ++ [c] ++ h2 = t ++ c :: h2 by simp] at step
      rw [show t ++ [c] ++ cs = t ++ c :: cs by simp] at step
      exact step

theorem flatMap_wordsP_splitP (p q : Char → Bool) (hqp : ∀ c, q c = true → p c = true)
    (s : Str) : (splitP q s).flatMap (wordsP p) = wordsP p s := by
  obtain ⟨h, tl, ht⟩ : ∃ h tl, splitP q s = h :: tl := by
    cases hs : splitP q s with
    | nil => exact absurd hs (splitP_ne_nil q s)
    | cons h tl => exact ⟨h, tl, rfl⟩
  have := flatMap_wordsP_consHead p q hqp s [] h tl ht
  simpa [ht] using this

theorem dropWhile_nil_all (p : Char → Bool) :
    ∀ l : Str, l.dropWhile p = [] → ∀ x ∈ l, p x = true := by
  intro l
  induction l with
  | nil => simp
  | cons c cs ih =>
    intro hdrop x hx
    by_cases hc : p c
    · simp only [List.dropWhile_cons, hc, if_true] at hdrop
      rcases List.mem_cons.mp hx with rfl | hx2
      · exact hc
      · exact ih hdrop x hx2
    · simp [List.dropWhile_cons, hc] at hdrop

theorem trim_nil_all (l : Str) (h : trim l = []) : ∀ ch ∈ l, isWS ch = true := by
  unfold trim at h
  rw [List.reverse_eq_nil_iff] at h
  have hrev := dropWhile_nil_all isWS _ h
  have hdrop : ∀ ch ∈ l.dropWhile isWS, isWS ch = true := by
    intro ch hch
    exact hrev ch (by simpa using hch)
  intro ch hch
  rw [← List.takeWhile_append_dropWhile (p := isWS) (l := l)] at hch
  rcases List.mem_append.mp hch with htake | hd
  · exact List.mem_takeWhile_imp htake
  · exact hdrop ch hd

theorem wsWords_nil_of_blank (l : Str) (h : trim l = []) : wsWords l = [] := by
  have hall := trim_nil_all l h
  unfold wsWords wordsP
  rw [List.filter_eq_nil_iff]
  intro w hw
  simp only [bne_iff_ne, ne_eq, not_not]
  cases w with
  | nil => rfl
  | cons ch rest =>
    exfalso
    have h1 : isWS ch = false :=
      splitP_chunk_not_p isWS l _ hw ch (List.mem_cons_self ch rest)
    have h2 : isWS ch = true :=
      hall ch (splitP_chunk_subset isWS l _ hw ch (List.mem_cons_self ch rest))
    simp [h1] at h2

/-! ### Lemmas on the greedy wrap -/

theorem wsWords_nil : wsWords [] = [] := rfl

theorem isWS_space : isWS ' ' = true := by decide

theorem wsWords_sep (cur w : Str) :
    wsWords (cur ++ ' ' :: w) = wsWords cur ++ wsWords w :=
  wordsP_append isWS isWS_space cur w

theorem wrapWords_flatMap (m : Str → ℚ) :
    ∀ (ws : List Str) (cur : Str),
      (wrapWords m ws cur).flatMap wsWords = wsWords cur ++ ws.flatMap wsWords := by
  intro ws
  induction ws with
  | nil =>
    intro cur
    by_cases hcur : cur = []
    · subst hcur; simp [wrapWords, wsWords_nil]
    · simp [wrapWords, hcur]
  | cons w ws ih =>
    intro cur
    have htest : wsWords (if cur ≠ [] then cur ++ ' ' :: w else w) = wsWords cur ++ wsWords w := by
      by_cases hcur : cur = []
      · subst hcur; simp [wsWords_nil]
      · rw [if_pos hcur]; exact wsWords_sep cur w
    simp only [wrapWords]
    by_cases hm : m (if cur ≠ [] then cur ++ ' ' :: w else w) ≤ availableWidth
    · rw [if_pos hm, ih, htest]
      simp [List.append_assoc]
    · rw [if_neg hm]
      by_cases hcur : cur = []
      · subst hcur
        simp only [ne_eq, not_true_eq_false, if_false, List.flatMap_cons, ih, wsWords_nil,
          List.nil_append, List.append_nil]
      · rw [if_pos hcur]
        simp [List.flatMap_cons, ih, List.append_assoc]

theorem wrapWords_bound (m : Str → ℚ) (Q : Str → Prop) :
    ∀ (ws : List Str) (cur : Str),
      (∀ w ∈ ws, (' ' ∉ w) ∧ Q w) →
      (cur = [] ∨ m cur ≤ availableWidth ∨ ((' ' ∉ cur) ∧ Q cur)) →
      ∀ line ∈ wrapWords m ws cur,
        m line ≤ availableWidth ∨ ((' ' ∉ line) ∧ Q line) := by
  intro ws
  induction ws with
  | nil =>
    intro cur hws hcur line hline
    by_cases h : cur = []
    · subst h; simp [wrapWords] at hline
    · simp only [wrapWords, if_pos h, List.mem_singleton] at hline
      subst hline
      rcases hcur with rfl | h2 | h3
      · exact absurd rfl h
      · exact Or.inl h2
      · exact Or.inr h3
  | cons w ws ih =>
    intro cur hws hcur line hline
    have hw := hws w (List.mem_cons_self w ws)
    have hws' : ∀ v ∈ ws, (' ' ∉ v) ∧ Q v := fun v hv => hws v (List.mem_cons_of_mem w hv)
    simp only [wrapWords] at hline
    by_cases hm : m (if cur ≠ [] then cur ++ ' ' :: w else w) ≤ availableWidth
    · rw [if_pos hm] at hline
      exact ih _ hws' (Or.inr (Or.inl hm)) line hline
    · rw [if_neg hm] at hline
      by_cases hc : cur = []
      · subst hc
        simp only [ne_eq, not_true_eq_false, if_false] at hline
        rcases List.mem_cons.mp hline with rfl | hline2
        · exact Or.inr hw
        · exact ih [] hws' (Or.inl rfl) line hline2
      · rw [if_pos hc] at hline
        rcases List.mem_cons.mp hline with rfl | hline2
        · rcases hcur with rfl | h2 | h3
          · exact absurd rfl hc
          · exact Or.inl h2
          · exact Or.inr h3
        · exact ih _ hws' (Or.inr (Or.inr hw)) line hline2

/-! ### Lemmas on the rendering operations -/

theorem fillOps_append (a b : List DrawOp) :
    fillOps (a ++ b) = fillOps a ++ fillOps b := by
  induction a with
  | nil => rfl
  | cons op rest ih => cases op <;> simp [fillOps, ih]

theorem fillOps_underline (st : TextStyle) (x w y : ℚ) :
    fillOps (underlineOps st x w y) = [] := by
  unfold underlineOps
  split <;> rfl

theorem fillOps_justifyWords (st : TextStyle) (m : Str → ℚ) (sw y : ℚ) :
    ∀ (ws : List Str) (x : ℚ),
      fillOps (justifyWords st m sw y ws x) = justPos m sw y ws x := by
  intro ws
  induction ws with
  | nil => intro x; rfl
  | cons w rest ih =>
    intro x
    cases rest with
    | nil => simp [justifyWords, justPos, fillOps, fillOps_underline]
    | cons b bs =>
      simp [justifyWords, justPos, fillOps_append, fillOps, fillOps_underline, ih]

theorem getLast?_cons_ne {α : Type} (a : α) (l : List α) (h : l ≠ []) :
    (a :: l).getLast? = l.getLast? := by
  cases l with
  | nil => exact absurd rfl h
  | cons b bs => exact List.getLast?_cons_cons

theorem justPos_ne_nil (m : Str → ℚ) (sw y : ℚ) (ws : List Str) (x : ℚ) (h : ws ≠ []) :
    justPos m sw y ws x ≠ [] := by
  cases ws with
  | nil => exact absurd rfl h
  | cons w rest => cases rest <;> simp [justPos]

theorem justPos_fst (m : Str → ℚ) (sw y : ℚ) :
    ∀ (ws : List Str) (x : ℚ), (justPos m sw y ws x).map Prod.fst = ws := by
  intro ws
  induction ws with
  | nil => intro x; rfl
  | cons w rest ih =>
    intro x
    cases rest with
    | nil => rfl
    | cons b bs => simp only [justPos, List.map_cons, ih]

theorem justPos_head (m : Str → ℚ) (sw y : ℚ) (w : Str) (rest : List Str) (x : ℚ) :
    (justPos m sw y (w :: rest) x)[0]? = some (w, x, y) := by
  cases rest <;> simp [justPos]

theorem justPos_getLast_map (m : Str → ℚ) (sw y : ℚ) :
    ∀ (ws : List Str) (x : ℚ), ws ≠ [] →
      ((justPos m sw y ws x).getLast?).map (fun t => t.2.1 + m t.1) =
        some (x + (ws.map m).sum + ((ws.length : ℚ) - 1) * sw) := by
  intro ws
  induction ws with
  | nil => intro x h; exact absurd rfl h
  | cons w rest ih =>
    intro x _
    cases rest with
    | nil =>
      simp only [justPos, List.getLast?_singleton, Option.map_some', List.map_cons,
        List.map_nil, List.sum_cons, List.sum_nil, List.length_cons, List.length_nil]
      rw [Option.some.injEq]
      push_cast
      ring
    | cons b bs =>
      have step := ih (x + m w + sw) (by simp)
      rw [show justPos m sw y (w :: b :: bs) x
          = (w, x, y) :: justPos m sw y (b :: bs) (x + m w + sw) from rfl]
      rw [getLast?_cons_ne _ _ (justPos_ne_nil m sw y (b :: bs) _ (by simp))]
      rw [step, Option.some.injEq]
      simp only [List.map_cons, List.sum_cons, List.length_cons]
      push_cast
      ring

theorem justPos_getLast_fst (m : Str → ℚ) (sw y : ℚ) :
    ∀ (ws : List Str) (x : ℚ),
      ((justPos m sw y ws x).getLast?).map Prod.fst = ws.getLast? := by
  intro ws
  induction ws with
  | nil => intro x; rfl
  | cons w rest ih =>
    intro x
    cases rest with
    | nil => rfl
    | cons b bs =>
      rw [show justPos m sw y (w :: b :: bs) x
          = (w, x, y) :: justPos m sw y (b :: bs) (x + m w + sw) from rfl]
      rw [getLast?_cons_ne _ _ (justPos_ne_nil m sw y (b :: bs) _ (by simp)),
        getLast?_cons_ne _ _ (by simp : (b :: bs : List Str) ≠ [])]
      exact ih (x + m w + sw)

theorem justPos_get_succ (m : Str → ℚ) (sw y : ℚ) :
    ∀ (ws : List Str) (x : ℚ) (k : ℕ) (w1 : Str) (x1 y1 : ℚ) (w2 : Str) (x2 y2 : ℚ),
      (justPos m sw y ws x)[k]? = some (w1, x1, y1) →
      (justPos m sw y ws x)[k + 1]? = some (w2, x2, y2) →
      x2 = x1 + m w1 + sw := by
  intro ws
  induction ws with
  | nil =>
    intro x k w1 x1 y1 w2 x2 y2 h1 _
    simp [justPos] at h1
  | cons w rest ih =>
    intro x k w1 x1 y1 w2 x2 y2 h1 h2
    cases rest with
    | nil =>
      simp [justPos] at h2
    | cons b bs =>
      rw [show justPos m sw y (w :: b :: bs) x
          = (w, x, y) :: justPos m sw y (b :: bs) (x + m w + sw) from rfl] at h1 h2
      cases k with
      | zero =>
        rw [List.getElem?_cons_zero, Option.some.injEq, Prod.mk.injEq, Prod.mk.injEq] at h1
        obtain ⟨rfl, rfl, rfl⟩ := h1
        rw [List.getElem?_cons_succ, justPos_head, Option.some.injEq, Prod.mk.injEq,
          Prod.mk.injEq] at h2
        obtain ⟨rfl, hx, rfl⟩ := h2
        exact hx.symm
      | succ k =>
        rw [List.getElem?_cons_succ] at h1 h2
        exact ih (x + m w + sw) k w1 x1 y1 w2 x2 y2 h1 h2

/-! ### Claim theorems -/

/-- Helper: outside the justify branch, the rendering of a line issues one
glyph operation, at the alignment-dependent x offset of the source's else
branch. -/
theorem renderLine_nonjustify (st : TextStyle) (m : Str → ℚ) (total i : ℕ) (line : Str)
    (h : ¬(st.align = Align.justify ∧ trim line ≠ [] ∧ i < total - 1)) :
    fillOps (renderLine st m total i line) =
      [(line,
        if st.align = Align.center then (fixedWidth - m line) / 2
        else if st.align = Align.right then fixedWidth - m line - padding
        else padding,
        yAt st i)] := by
  simp only [renderLine]
  rw [if_neg h]
  simp only [fillOps, fillOps_underline]

/-- Claim C2, corrected.  For every line, the horizontal offset used by
`align = left` (namely `padding`) plus the offset used by `align = right`
(namely `fixedWidth − w − padding`) equals `fixedWidth − measure(line)`.
The claimed value `fixedWidth − measure(line) − 2×padding` is off by
`2×padding`; see the counterexample. -/
theorem left_right_sum (s : TextStyle) (m : Str → ℚ) (line : Str) (total i : ℕ) :
    addX (lastFill (renderLine { s with align := Align.left } m total i line))
        (lastFill (renderLine { s with align := Align.right } m total i line))
      = some (fixedWidth - m line) := by
  have hL := renderLine_nonjustify { s with align := Align.left } m total i line
    (fun hc => Align.noConfusion hc.1)
  have hR := renderLine_nonjustify { s with align := Align.right } m total i line
    (fun hc => Align.noConfusion hc.1)
  rw [if_neg (show ¬(({ s with align := Align.left } : TextStyle).align = Align.center) from
      fun h => Align.noConfusion h),
    if_neg (show ¬(({ s with align := Align.left } : TextStyle).align = Align.right) from
      fun h => Align.noConfusion h)] at hL
  rw [if_neg (show ¬(({ s with align := Align.right } : TextStyle).align = Align.center) from
      fun h => Align.noConfusion h),
    if_pos (show (({ s with align := Align.right } : TextStyle).align = Align.right) from
      rfl)] at hR
  unfold lastFill
  rw [hL, hR]
  simp only [List.getLast?_singleton, addX]
  rw [Option.some.injEq]
  ring

/-- Claim C2, counterexample to the claim as stated: for the two-character
line `"ab"` under the 100-per-character measure, the left offset is 1 and
the right offset is 399, so the offsets sum to `fixedWidth − measure = 400`
and not `fixedWidth − measure − 2×padding = 398`. -/
theorem left_right_sum_cex :
    addX (lastFill (renderLine { initStyle with align := Align.left } exMeasure 1 0 ("ab".toList)))
        (lastFill (renderLine { initStyle with align := Align.right } exMeasure 1 0 ("ab".toList)))
      ≠ some (fixedWidth - exMeasure ("ab".toList) - 2 * padding) := by
  have hL := renderLine_nonjustify { initStyle with align := Align.left } exMeasure 1 0
    ("ab".toList) (fun hc => Align.noConfusion hc.1)
  have hR := renderLine_nonjustify { initStyle with align := Align.right } exMeasure 1 0
    ("ab".toList) (fun hc => Align.noConfusion hc.1)
  rw [if_neg (show ¬(({ initStyle with align := Align.left } : TextStyle).align = Align.center)
      from fun h => Align.noConfusion h),
    if_neg (show ¬(({ initStyle with align := Align.left } : TextStyle).align = Align.right)
      from fun h => Align.noConfusion h)] at hL
  rw [if_neg (show ¬(({ initStyle with align := Align.right } : TextStyle).align = Align.center)
      from fun h => Align.noConfusion h),
    if_pos (show (({ initStyle with align := Align.right } : TextStyle).align = Align.right)
      from rfl)] at hR
  unfold lastFill
  rw [hL, hR]
  simp only [List.getLast?_singleton, addX]
  intro hcontra
  rw [Option.some.injEq] at hcontra
  rw [show (padding : ℚ) = 1 from rfl] at hcontra
  linarith

/-- Claim C6.  If the document, split on newlines with blank lines dropped,
is empty, the export operation returns `none`: no surface mutation and no
file. -/
theorem empty_doc_noop (dpr : ℚ) (m : Str → ℚ) (text title : Str) (st : TextStyle)
    (h : docLines text = []) :
    downloadAsPNG dpr m text title st = none := by
  unfold downloadAsPNG
  rw [h]
  rfl

/-- Claim C6, witness: a document of three blank lines (two newline
characters) produces no filtered lines and the export is a no-op. -/
theorem empty_doc_noop_witness :
    docLines ("\n\n".toList) = [] ∧
      downloadAsPNG 2 exMeasure ("\n\n".toList) [] initStyle = none :=
  ⟨by decide, empty_doc_noop 2 exMeasure ("\n\n".toList) [] initStyle (by decide)⟩

/-- Claim C7.  For a successful export of `N` wrapped lines at font size
`F`, the computed text height is `N × (1.5F) − 0.5F` and the surface
height is `(textHeight + 2×padding) × deviceScale`. -/
theorem height_formula (dpr : ℚ) (m : Str → ℚ) (text title : Str) (st : TextStyle)
    (out : ExportOutput) (h : downloadAsPNG dpr m text title st = some out) :
    out.textHeight = (out.wrappedLines.length : ℚ) * (1.5 * st.fontSize) - 0.5 * st.fontSize ∧
      out.canvasHeight = (out.textHeight + 2 * padding) * dpr := by
  unfold downloadAsPNG at h
  by_cases hl : docLines text = []
  · rw [if_pos hl] at h
    exact absurd h (by simp)
  · rw [if_neg hl, Option.some.injEq] at h
    subst h
    refine ⟨?_, ?_⟩ <;> simp only [textHeightOf, lineHeight] <;> ring

/-- Helper: the concrete export of the one-word document `"hi"` under the
100-per-character measure, initial style and device scale 2. -/
theorem downloadAsPNG_hi : downloadAsPNG 2 exMeasure ("hi".toList) [] initStyle = some outEx := by
  have hwrap : wrapLines exMeasure (docLines ("hi".toList)) = [['h', 'i']] := by
    rw [show docLines ("hi".toList) = [['h', 'i']] from by decide]
    unfold wrapLines
    simp only [List.flatMap_cons, List.flatMap_nil, List.append_nil]
    rw [if_neg (show ¬(trim ['h', 'i'] = []) from by decide)]
    rw [show splitP (fun c => c == ' ') ['h', 'i'] = [['h', 'i']] from by decide]
    simp [wrapWords]
  unfold downloadAsPNG
  rw [if_neg (show ¬(docLines ("hi".toList) = []) from by decide), hwrap]
  rw [Option.some.injEq]
  have hfill : renderAll initStyle exMeasure [['h', 'i']] = [DrawOp.fillText ['h', 'i'] 1 1] := by
    unfold renderAll
    simp only [List.enum, List.enumFrom, List.flatMap_cons, List.flatMap_nil, List.append_nil,
      List.length_cons, List.length_nil]
    simp only [renderLine]
    rw [if_neg (fun hc => absurd hc.1 (by decide : ¬(initStyle.align = Align.justify)))]
    rw [if_neg (by decide : ¬(initStyle.align = Align.center)),
      if_neg (by decide : ¬(initStyle.align = Align.right))]
    rw [show underlineOps initStyle padding (exMeasure ['h', 'i']) (yAt initStyle 0) = [] from rfl]
    rw [show (padding : ℚ) = 1 from rfl]
    norm_num [yAt, startY, padding]
  rw [hfill]
  show ExportOutput.mk _ _ _ _ _ _ _ = _
  unfold outEx
  rw [ExportOutput.mk.injEq]
  refine ⟨rfl, ?_, ?_, ?_, rfl, rfl, rfl⟩
  · norm_num [textHeightOf, lineHeight, initStyle]
  · norm_num [fixedWidth]
  · norm_num [textHeightOf, lineHeight, initStyle, padding]

/-- Claim C7, witness: the concrete export of `"hi"` under the
100-per-character measure, initial style and device scale 2 has
`textHeight = 1 × 16.5 − 5.5 = 11` and surface height `(11 + 2) × 2 = 26`. -/
theorem height_formula_witness :
    downloadAsPNG 2 exMeasure ("hi".toList) [] initStyle = some outEx ∧
      (outEx.textHeight
          = (outEx.wrappedLines.length : ℚ) * (1.5 * initStyle.fontSize)
            - 0.5 * initStyle.fontSize ∧
        outEx.canvasHeight = (outEx.textHeight + 2 * padding) * 2) :=
  ⟨downloadAsPNG_hi,
    height_formula 2 exMeasure ("hi".toList) [] initStyle outEx downloadAsPNG_hi⟩

/-- Claim C8.  The export pipeline is a pure function of the document, the
style, the title, the measure and the device scale: identical inputs give
identical wrapped lines and identical export output (dimensions, draw
operations, color, file name). -/
theorem export_deterministic (dpr dpr' : ℚ) (m m' : Str → ℚ) (text text' title title' : Str)
    (s s' : TextStyle) (h1 : dpr = dpr') (h2 : m = m') (h3 : text = text')
    (h4 : title = title') (h5 : s = s') :
    wrapDoc m text = wrapDoc m' text' ∧
      downloadAsPNG dpr m text title s = downloadAsPNG dpr' m' text' title' s' := by
  subst h1; subst h2; subst h3; subst h4; subst h5
  exact ⟨rfl, rfl⟩

/-- Claim C8, witness: re-exporting the concrete `"hello world"` document
with unchanged inputs reproduces the identical output. -/
theorem export_deterministic_witness :
    wrapDoc exMeasure ("hi".toList) = wrapDoc exMeasure ("hi".toList) ∧
      downloadAsPNG 2 exMeasure ("hi".toList) [] initStyle
        = downloadAsPNG 2 exMeasure ("hi".toList) [] initStyle :=
  export_deterministic 2 2 exMeasure exMeasure ("hi".toList) ("hi".toList)
    [] [] initStyle initStyle rfl rfl rfl rfl rfl

/-- Claim C9.  The initial font size 11 lies in `[8, 72]`, the font-size
mutator clamps its result into `[8, 72]` for every starting value and
every delta, and consequently no sequence of user actions started from the
initial style can drive `fontSize` outside `[8, 72]`. -/
theorem font_size_invariant :
    (8 ≤ initStyle.fontSize ∧ initStyle.fontSize ≤ 72) ∧
      (∀ (s : TextStyle) (d : ℚ),
        8 ≤ (changeFontSize d s).fontSize ∧ (changeFontSize d s).fontSize ≤ 72) ∧
      (∀ acts : List EditorAct,
        8 ≤ (applyActions acts initStyle).fontSize ∧
          (applyActions acts initStyle).fontSize ≤ 72) := by
  have hclamp : ∀ (s : TextStyle) (d : ℚ),
      8 ≤ (changeFontSize d s).fontSize ∧ (changeFontSize d s).fontSize ≤ 72 := by
    intro s d
    unfold changeFontSize
    constructor
    · exact le_max_left 8 _
    · exact max_le (by norm_num) (min_le_left 72 _)
  have hstep : ∀ (s : TextStyle) (a : EditorAct),
      8 ≤ s.fontSize → s.fontSize ≤ 72 →
        8 ≤ (applyAction s a).fontSize ∧ (applyAction s a).fontSize ≤ 72 := by
    intro s a h1 h2
    cases a with
    | toggle p => cases p <;> exact ⟨h1, h2⟩
    | setAlign a => exact ⟨h1, h2⟩
    | changeFont d => exact hclamp s d
    | setColor c => exact ⟨h1, h2⟩
  have hfold : ∀ (acts : List EditorAct) (s : TextStyle),
      8 ≤ s.fontSize → s.fontSize ≤ 72 →
        8 ≤ (applyActions acts s).fontSize ∧ (applyActions acts s).fontSize ≤ 72 := by
    intro acts
    induction acts with
    | nil => intro s h1 h2; exact ⟨h1, h2⟩
    | cons a rest ih =>
      intro s h1 h2
      have := hstep s a h1 h2
      exact ih (applyAction s a) this.1 this.2
  refine ⟨⟨by norm_num [initStyle], by norm_num [initStyle]⟩, hclamp, ?_⟩
  intro acts
  exact hfold acts initStyle (by norm_num [initStyle]) (by norm_num [initStyle])

/-- Claim C10.  Each style mutator modifies only its own field:
`toggleStyle` flips exactly the named boolean and keeps every other field,
`setAlignment` changes only `align`, `changeFontSize` changes only
`fontSize`, and `changeColor` changes only `color`. -/
theorem mutators_frame :
    (∀ (p : ToggleProp) (s : TextStyle),
      (toggleStyle p s).fontSize = s.fontSize ∧ (toggleStyle p s).color = s.color ∧
        (toggleStyle p s).align = s.align) ∧
    (∀ s : TextStyle,
      (toggleStyle ToggleProp.bold s).bold = !s.bold ∧
        (toggleStyle ToggleProp.bold s).italic = s.italic ∧
        (toggleStyle ToggleProp.bold s).underline = s.underline) ∧
    (∀ s : TextStyle,
      (toggleStyle ToggleProp.italic s).italic = !s.italic ∧
        (toggleStyle ToggleProp.italic s).bold = s.bold ∧
        (toggleStyle ToggleProp.italic s).underline = s.underline) ∧
    (∀ s : TextStyle,
      (toggleStyle ToggleProp.underline s).underline = !s.underline ∧
        (toggleStyle ToggleProp.underline s).bold = s.bold ∧
        (toggleStyle ToggleProp.underline s).italic = s.italic) ∧
    (∀ (a : Align) (s : TextStyle),
      (setAlignment a s).align = a ∧ (setAlignment a s).bold = s.bold ∧
        (setAlignment a s).italic = s.italic ∧
        (setAlignment a s).underline = s.underline ∧
        (setAlignment a s).fontSize = s.fontSize ∧ (setAlignment a s).color = s.color) ∧
    (∀ (d : ℚ) (s : TextStyle),
      (changeFontSize d s).bold = s.bold ∧ (changeFontSize d s).italic = s.italic ∧
        (changeFontSize d s).underline = s.underline ∧
        (changeFontSize d s).color = s.color ∧ (changeFontSize d s).align = s.align) ∧
    (∀ (c : Str) (s : TextStyle),
      (changeColor c s).color = c ∧ (changeColor c s).bold = s.bold ∧
        (changeColor c s).italic = s.italic ∧ (changeColor c s).underline = s.underline ∧
        (changeColor c s).fontSize = s.fontSize ∧ (changeColor c s).align = s.align) := by
  refine ⟨fun p s => ?_, fun s => ⟨rfl, rfl, rfl⟩, fun s => ⟨rfl, rfl, rfl⟩,
    fun s => ⟨rfl, rfl, rfl⟩, fun a s => ⟨rfl, rfl, rfl, rfl, rfl, rfl⟩,
    fun d s => ⟨rfl, rfl, rfl, rfl, rfl⟩, fun c s => ⟨rfl, rfl, rfl, rfl, rfl, rfl⟩⟩
  cases p <;> exact ⟨rfl, rfl, rfl⟩

/-- Helper: characters split on `' '` satisfy the whitespace predicate
refinement, so collapsing whitespace after the space split equals
collapsing whitespace directly. -/
theorem space_le_ws : ∀ c : Char, (c == ' ') = true → isWS c = true := by
  intro c h
  have : c = ' ' := by simpa using h
  subst this
  decide

/-- Helper: the newline separator is whitespace. -/
theorem newline_le_ws : ∀ c : Char, (c == '\n') = true → isWS c = true := by
  intro c h
  have : c = '\n' := by simpa using h
  subst this
  decide

/-- Helper: wrapping a list of raw lines preserves the whitespace-collapsed
word sequence of those lines. -/
theorem wrapLines_words (m : Str → ℚ) (lines : List Str) :
    (wrapLines m lines).flatMap wsWords = lines.flatMap wsWords := by
  induction lines with
  | nil => rfl
  | cons line rest ih =>
    show ((if trim line = [] then []
        else wrapWords m (splitP (fun c => c == ' ') line) []) ++ wrapLines m rest).flatMap wsWords
      = _
    rw [List.flatMap_append, ih, List.flatMap_cons]
    by_cases hb : trim line = []
    · rw [if_pos hb, wsWords_nil_of_blank line hb]
      rfl
    · rw [if_neg hb, wrapWords_flatMap m _ []]
      rw [show wsWords [] = [] from rfl, List.nil_append]
      exact congrArg (fun z => z ++ rest.flatMap wsWords)
        (flatMap_wordsP_splitP isWS (fun c => c == ' ') space_le_ws line)

/-- Helper: dropping blank lines does not change the whitespace-collapsed
word sequence. -/
theorem flatMap_filter_blank (l : List Str) :
    (l.filter fun s => trim s != []).flatMap wsWords = l.flatMap wsWords := by
  induction l with
  | nil => rfl
  | cons a rest ih =>
    by_cases hb : trim a = []
    · have hcond : (trim a != []) = false := by simp [hb]
      simp only [List.filter_cons, hcond, Bool.false_eq_true, if_false, ih, List.flatMap_cons,
        wsWords_nil_of_blank a hb, List.nil_append]
    · have hcond : (trim a != []) = true := by simp [hb]
      simp only [List.filter_cons, hcond, if_true, List.flatMap_cons, ih]

/-- Claim C4.  For every document and every measure, concatenating the
whitespace-collapsed words of all wrapped lines, in order, reproduces
exactly the whitespace-collapsed words of the original document: no word
is dropped, duplicated or reordered. -/
theorem wrap_completeness (m : Str → ℚ) (text : Str) :
    (wrapDoc m text).flatMap wsWords = wsWords text := by
  unfold wrapDoc docLines
  rw [wrapLines_words, flatMap_filter_blank]
  exact flatMap_wordsP_splitP isWS (fun c => c == '\n') newline_le_ws text

/-- Claim C3.  For every document and every measure, every emitted wrapped
line either measures within the available width, or contains no space
character at all — it is one of the document's raw space-separated words,
emitted verbatim on a line of its own. -/
theorem wrap_width_bound (m : Str → ℚ) (text : Str) (line : Str)
    (h : line ∈ wrapDoc m text) :
    m line ≤ availableWidth ∨ ((' ' ∉ line) ∧ line ∈ rawDocWords text) := by
  unfold wrapDoc wrapLines at h
  rw [List.mem_flatMap] at h
  obtain ⟨rawline, hraw, hline⟩ := h
  by_cases hb : trim rawline = []
  · rw [if_pos hb] at hline
    simp at hline
  · rw [if_neg hb] at hline
    have hws : ∀ w ∈ splitP (fun c => c == ' ') rawline,
        (' ' ∉ w) ∧ w ∈ rawDocWords text := by
      intro w hw
      refine ⟨fun hsp => ?_, ?_⟩
      · have := splitP_chunk_not_p (fun c => c == ' ') rawline w hw ' ' hsp
        simp at this
      · unfold rawDocWords
        rw [List.mem_flatMap]
        exact ⟨rawline, hraw, hw⟩
    exact wrapWords_bound m (fun w => w ∈ rawDocWords text) _ [] hws (Or.inl rfl) line hline

/-- Helper: the wrap of the one-word document `"hi"` under the concrete
measure. -/
theorem wrapDoc_hi : wrapDoc exMeasure ("hi".toList) = [['h', 'i']] := by
  unfold wrapDoc
  rw [show docLines ("hi".toList) = [['h', 'i']] from by decide]
  unfold wrapLines
  simp only [List.flatMap_cons, List.flatMap_nil, List.append_nil]
  rw [if_neg (show ¬(trim ['h', 'i'] = []) from by decide)]
  rw [show splitP (fun c => c == ' ') ['h', 'i'] = [['h', 'i']] from by decide]
  simp [wrapWords]

/-- Claim C3, witness: the single wrapped line of the document `"hi"`
satisfies the width bound under the 100-per-character measure. -/
theorem wrap_width_bound_witness :
    (['h', 'i'] ∈ wrapDoc exMeasure ("hi".toList)) ∧
      (exMeasure ['h', 'i'] ≤ availableWidth ∨
        ((' ' ∉ (['h', 'i'] : Str)) ∧ ['h', 'i'] ∈ rawDocWords ("hi".toList))) :=
  ⟨by rw [wrapDoc_hi]; exact List.mem_singleton_self _,
    wrap_width_bound exMeasure ("hi".toList) ['h', 'i'] (by rw [wrapDoc_hi]; exact List.mem_singleton_self _)⟩

/-- Claim C1, amended.  For a justified, multi-word, non-final line, the x
at which the last word is placed plus the measured width of the last word
equals `availableWidth + padding` (equivalently `fixedWidth − padding`),
not `availableWidth − padding` as claimed; the line spans from `padding`
to `fixedWidth − padding`. -/
theorem justify_full_span (st : TextStyle) (m : Str → ℚ) (line : Str) (total i : ℕ)
    (hj : st.align = Align.justify) (ht : trim line ≠ []) (hi : i < total - 1)
    (hn : 2 ≤ (wsWords (trim line)).length) :
    (lastFill (renderLine st m total i line)).map (fun t => t.2.1 + m t.1)
        = some (availableWidth + padding) ∧
      (lastFill (renderLine st m total i line)).map Prod.fst
        = (wsWords (trim line)).getLast? := by
  have hfills : fillOps (renderLine st m total i line)
      = justPos m (justSW m (wsWords (trim line))) (yAt st i) (wsWords (trim line)) padding := by
    simp only [renderLine]
    rw [if_pos ⟨hj, ht, hi⟩, if_pos (by omega : 1 < (wsWords (trim line)).length)]
    exact fillOps_justifyWords st m _ _ _ _
  have hne : wsWords (trim line) ≠ [] := by
    intro hcon
    rw [hcon] at hn
    simp at hn
  unfold lastFill
  rw [hfills]
  constructor
  · rw [justPos_getLast_map m _ _ _ padding hne, Option.some.injEq]
    have hlen : ((wsWords (trim line)).length : ℚ) - 1 ≠ 0 := by
      have h2 : (2 : ℚ) ≤ ((wsWords (trim line)).length : ℚ) := by exact_mod_cast hn
      linarith
    unfold justSW
    field_simp
    ring
  · exact justPos_getLast_fst m _ _ _ padding

/-- Claim C1, counterexample to the claim as stated: the document
`"ab cd ef"` wraps (under the 100-per-character measure) to the lines
`"ab cd"` and `"ef"`; on the justified non-final line `"ab cd"` the last
word is placed at `x = 399` and measures 200, so
`x + measure = 599 = availableWidth + padding`, not
`availableWidth − padding = 597`. -/
theorem justify_full_span_cex :
    wrapDoc exMeasure ("ab cd ef".toList) = [("ab cd".toList), ("ef".toList)] ∧
      (lastFill (renderLine justStyle exMeasure 2 0 ("ab cd".toList))).map
        (fun t => t.2.1 + exMeasure t.1) ≠ some (availableWidth - padding) := by
  constructor
  · unfold wrapDoc
    rw [show docLines ("ab cd ef".toList) = [("ab cd ef".toList)] from by decide]
    unfold wrapLines
    simp only [List.flatMap_cons, List.flatMap_nil, List.append_nil]
    rw [if_neg (show ¬(trim ("ab cd ef".toList) = []) from by decide)]
    rw [show splitP (fun c => c == ' ') ("ab cd ef".toList)
        = [("ab".toList), ("cd".toList), ("ef".toList)] from by decide]
    have c1 : exMeasure ['a', 'b'] ≤ availableWidth := by
      norm_num [exMeasure, availableWidth, fixedWidth, padding]
    have c2 : exMeasure ['a', 'b', ' ', 'c', 'd'] ≤ availableWidth := by
      norm_num [exMeasure, availableWidth, fixedWidth, padding]
    have c3 : ¬ exMeasure ['a', 'b', ' ', 'c', 'd', ' ', 'e', 'f'] ≤ availableWidth := by
      norm_num [exMeasure, availableWidth, fixedWidth, padding]
    have c4 : exMeasure ['e', 'f'] ≤ availableWidth := by
      norm_num [exMeasure, availableWidth, fixedWidth, padding]
    simp [wrapWords, c1, c2, c3, c4]
  · have hws : wsWords (trim ("ab cd".toList)) = [['a', 'b'], ['c', 'd']] := by decide
    have hfills : fillOps (renderLine justStyle exMeasure 2 0 ("ab cd".toList))
        = justPos exMeasure (justSW exMeasure [['a', 'b'], ['c', 'd']]) (yAt justStyle 0)
            [['a', 'b'], ['c', 'd']] padding := by
      simp only [renderLine]
      rw [if_pos (show justStyle.align = Align.justify ∧ trim ("ab cd".toList) ≠ [] ∧ 0 < 2 - 1
          from ⟨rfl, by decide, by decide⟩)]
      rw [hws]
      rw [if_pos (by decide : 1 < ([['a', 'b'], ['c', 'd']] : List Str).length)]
      exact fillOps_justifyWords justStyle exMeasure _ _ _ _
    unfold lastFill
    rw [hfills, justPos_getLast_map exMeasure _ _ _ padding (by simp)]
    intro hcontra
    rw [Option.some.injEq] at hcontra
    norm_num [exMeasure, justSW, availableWidth, fixedWidth, padding] at hcontra

/-- Claim C1, witness for the amended theorem, at the justified non-final
two-word line `"ab cd"`. -/
theorem justify_full_span_witness :
    (trim ("ab cd".toList) ≠ [] ∧ 2 ≤ (wsWords (trim ("ab cd".toList))).length) ∧
      ((lastFill (renderLine justStyle exMeasure 2 0 ("ab cd".toList))).map
          (fun t => t.2.1 + exMeasure t.1) = some (availableWidth + padding) ∧
        (lastFill (renderLine justStyle exMeasure 2 0 ("ab cd".toList))).map Prod.fst
          = (wsWords (trim ("ab cd".toList))).getLast?) :=
  ⟨⟨by decide, by decide⟩,
    justify_full_span justStyle exMeasure ("ab cd".toList) 2 0 rfl (by decide) (by decide)
      (by decide)⟩

/-- Claim C5.  Under justified alignment: the final wrapped line is placed
left-aligned at `x = padding`; a non-final line whose trimmed content has
at most one word is placed at `x = padding`; and a non-final multi-word
line is justified — its words appear in order, the first at `x = padding`,
with each successive word advanced by the previous word's measured width
plus the uniform gap `justSW` that distributes the slack equally. -/
theorem justify_exemptions (st : TextStyle) (m : Str → ℚ) (line : Str) (total i : ℕ)
    (hj : st.align = Align.justify) :
    (¬ i < total - 1 → fillOps (renderLine st m total i line) = [(line, padding, yAt st i)]) ∧
      (i < total - 1 → trim line ≠ [] → (wsWords (trim line)).length ≤ 1 →
        fillOps (renderLine st m total i line) = [(line, padding, yAt st i)]) ∧
      (i < total - 1 → trim line ≠ [] → 2 ≤ (wsWords (trim line)).length →
        ((fillOps (renderLine st m total i line)).map Prod.fst = wsWords (trim line) ∧
          (fillOps (renderLine st m total i line))[0]?
            = some ((wsWords (trim line)).headI, padding, yAt st i) ∧
          ∀ (k : ℕ) (w1 : Str) (x1 y1 : ℚ) (w2 : Str) (x2 y2 : ℚ),
            (fillOps (renderLine st m total i line))[k]? = some (w1, x1, y1) →
            (fillOps (renderLine st m total i line))[k + 1]? = some (w2, x2, y2) →
            x2 = x1 + m w1 + justSW m (wsWords (trim line)))) := by
  refine ⟨?_, ?_, ?_⟩
  · intro hlast
    have h := renderLine_nonjustify st m total i line (fun hc => hlast hc.2.2)
    rw [hj] at h
    rw [if_neg (fun hcc => Align.noConfusion hcc),
      if_neg (fun hcc => Align.noConfusion hcc)] at h
    exact h
  · intro hi ht hle
    simp only [renderLine]
    rw [if_pos ⟨hj, ht, hi⟩, if_neg (by omega : ¬ 1 < (wsWords (trim line)).length)]
    simp only [fillOps, fillOps_underline]
  · intro hi ht hge
    have hfills : fillOps (renderLine st m total i line)
        = justPos m (justSW m (wsWords (trim line))) (yAt st i) (wsWords (trim line)) padding := by
      simp only [renderLine]
      rw [if_pos ⟨hj, ht, hi⟩, if_pos (by omega : 1 < (wsWords (trim line)).length)]
      exact fillOps_justifyWords st m _ _ _ _
    rw [hfills]
    refine ⟨justPos_fst m _ _ _ padding, ?_, ?_⟩
    · obtain ⟨w, rest, hwr⟩ : ∃ w rest, wsWords (trim line) = w :: rest := by
        cases hcase : wsWords (trim line) with
        | nil => rw [hcase] at hge; simp at hge
        | cons w rest => exact ⟨w, rest, rfl⟩
      rw [hwr, justPos_head]
      simp
    · intro k w1 x1 y1 w2 x2 y2 h1 h2
      exact justPos_get_succ m _ _ _ padding k w1 x1 y1 w2 x2 y2 h1 h2

/-- Claim C5, witness: a one-line justified document's single (hence last)
wrapped line is placed left-aligned at `x = padding`. -/
theorem justify_exemptions_witness :
    fillOps (renderLine justStyle exMeasure 1 0 ("hi".toList))
      = [(("hi".toList), padding, yAt justStyle 0)] :=
  (justify_exemptions justStyle exMeasure ("hi".toList) 1 0 rfl).1 (by decide)
